import Mathlib

/-!
Shallow embedding of the `llm_proofreader` diff-aware translation auditor
(`llm_proofreader/llm_proofreader.py`): the PO entry scanner, the diff
extractor `parse_po_diff`, the classifier retry/normalization logic, and a
transition-system model of the bounded-concurrency orchestration.
-/

namespace LlmProofreader

/-- Strip a prefix from a character list: `some rest` when `s = p ++ rest`. -/
def dropPrefixL : List Char → List Char → Option (List Char)
  | [], s => some s
  | _ :: _, [] => none
  | p :: ps, c :: cs => if c = p then dropPrefixL ps cs else none

/-- Model of Python `str.startswith`: the pattern is a prefix of the string. -/
def pyStartsWith (s p : String) : Bool := (dropPrefixL p.toList s.toList).isSome

/-- Model of Python `needle in hay` substring containment. -/
def containsSub : List Char → List Char → Bool
  | hay, needle =>
    if (dropPrefixL needle hay).isSome then true
    else match hay with
      | [] => false
      | _ :: t => containsSub t needle

/-- Split a character list on newline characters (segments between `\n`s),
modelling the segments over which Python regex `.` can range. -/
def splitNl : List Char → List (List Char)
  | [] => [[]]
  | c :: rest =>
    if c = '\n' then [] :: splitNl rest
    else
      match splitNl rest with
      | seg :: segs => (c :: seg) :: segs
      | [] => [[c]]

/-- The PO escape lookup table `_PO_ESCAPES` of the source: which literal
character each escaped character stands for. -/
def poEscape (c : Char) : Char :=
  if c = 'n' then '\n' else if c = 't' then '\t' else c

/-- One left-to-right pass of `_PO_ESCAPE_RE.sub`: replace each
non-overlapping two-character sequence backslash-(backslash|n|t|quote) with
its literal character, continuing the scan after each replacement. -/
def unescapeChars : List Char → List Char
  | [] => []
  | [c] => [c]
  | a :: b :: rest =>
    if a = '\\' ∧ (b = '\\' ∨ b = 'n' ∨ b = 't' ∨ b = '"') then
      poEscape b :: unescapeChars rest
    else
      a :: unescapeChars (b :: rest)

/-- `_unescape_po` of the source: unescape a PO string value in one pass. -/
def _unescape_po (s : String) : String := String.mk (unescapeChars s.toList)

/-- Model of `re.search` with pattern quote-dotstar-quote on one
newline-free segment: if the segment holds at least two quotes, capture the
(greedy) text between its first and its last quote. -/
def betweenQuotes (seg : List Char) : Option (List Char) :=
  let after := (seg.dropWhile (fun c => c != '"')).drop 1
  if after.contains '"' then
    some ((after.reverse.dropWhile (fun c => c != '"')).drop 1).reverse
  else none

/-- Model of `re.search` of quote-dotstar-quote over a whole line: the first
newline-delimited segment with two quotes yields the capture. -/
def firstQuoted (line : String) : Option (List Char) :=
  (splitNl line.toList).findSome? betweenQuotes

/-- Model of `re.match` of caret-quote-dotstar-quote-dollar on a line: the
line (up to one final newline) is entirely a quoted string with no inner
newline; capture the text between the outer quotes. -/
def contQuoted (line : String) : Option (List Char) :=
  let l := line.toList
  let core := if l.getLast? = some '\n' then l.dropLast else l
  match core with
  | '"' :: rest =>
    if rest.getLast? = some '"' then
      let mid := rest.dropLast
      if mid.contains '\n' then none else some mid
    else none
  | _ => none

/-- Collect the maximal run of continuation lines (lines entirely a quoted
string) from the front of the remaining lines, returning the captured parts
and the remaining suffix.  Models the inner `while` of
`_extract_po_string_lines`. -/
def takeContsPo : List String → List (List Char) × List String
  | [] => ([], [])
  | l :: rest =>
    match contQuoted l with
    | some s => let tc := takeContsPo rest; (s :: tc.1, tc.2)
    | none => ([], l :: rest)

/-- `_extract_po_string_lines` of the source, phrased on the suffix of the
line list starting at the cursor: extract the full (possibly multi-line) PO
string value, returning the value and the remaining suffix. -/
def _extract_po_string_lines : List String → String × List String
  | [] => ("", [])
  | l :: rest =>
    match firstQuoted l with
    | none => ("", rest)
    | some s =>
      let tc := takeContsPo rest
      (String.mk (unescapeChars (s ++ tc.1.flatten)), tc.2)

/-- The msgstr-locating logic of `_extract_pairs_from_lines` (source lines
191-198): if the cursor is on a msgstr line extract it; otherwise skip lines
until a msgstr or msgid line (or end) and extract only when a msgstr line was
reached, else the value is empty. -/
def extractMsgstr (r1 : List String) : String × List String :=
  match r1 with
  | l :: rest =>
    if pyStartsWith l "msgstr \"" then _extract_po_string_lines (l :: rest)
    else
      let skipped := (l :: rest).dropWhile
        (fun x => !(pyStartsWith x "msgstr \"") && !(pyStartsWith x "msgid \""))
      match skipped with
      | l2 :: rest2 =>
        if pyStartsWith l2 "msgstr \"" then _extract_po_string_lines (l2 :: rest2)
        else ("", l2 :: rest2)
      | [] => ("", [])
  | [] => ("", [])

/-- Fuel-indexed form of the scanning loop of `_extract_pairs_from_lines`;
the fuel only serves to present the loop structurally, and is immaterial as
soon as it bounds the number of lines. -/
def extractPairsF : Nat → List String → List (String × String)
  | 0, _ => []
  | _ + 1, [] => []
  | fuel + 1, l :: rest =>
    if pyStartsWith l "msgid \"" then
      let mid := (_extract_po_string_lines (l :: rest)).1
      let p2 := extractMsgstr (_extract_po_string_lines (l :: rest)).2
      if mid ≠ "" then (mid, p2.1) :: extractPairsF fuel p2.2
      else extractPairsF fuel p2.2
    else extractPairsF fuel rest

/-- `_extract_pairs_from_lines` of the source: extract msgid/msgstr pairs
from reconstructed PO lines. -/
def _extract_pairs_from_lines (lines : List String) : List (String × String) :=
  extractPairsF lines.length lines

/-- Tag of one line of a unified-diff hunk. -/
inductive LineTag where
  | added
  | removed
  | context
deriving DecidableEq

/-- One line of a hunk as delivered by the external unidiff parser: its tag
and its raw text value (which still carries its line terminator). -/
structure DiffLine where
  tag : LineTag
  value : String
deriving DecidableEq

/-- One file of a parsed unified diff: its reported path and its hunks, each
an ordered sequence of tagged lines. -/
structure PatchedFile where
  path : String
  hunks : List (List DiffLine)
deriving DecidableEq

/-- Model of Python `str.rstrip` with a newline argument: drop every
trailing newline character. -/
def rstripNl (s : String) : String :=
  String.mk (s.toList.reverse.dropWhile (fun c => c = '\n')).reverse

/-- Post-image side of a hunk (source lines 237-245): the stripped values of
the added and context lines, in order. -/
def plusLines (hunk : List DiffLine) : List String :=
  hunk.filterMap (fun ln => if ln.tag = LineTag.removed then none else some (rstripNl ln.value))

/-- Pre-image side of a hunk (source lines 237-245): the stripped values of
the removed and context lines, in order. -/
def minusLines (hunk : List DiffLine) : List String :=
  hunk.filterMap (fun ln => if ln.tag = LineTag.added then none else some (rstripNl ln.value))

/-- The `old_lookup` dict of `parse_po_diff`: insertion-order overwrite, so
the value of the last pair carrying the key wins; absent keys give the
default empty string of `dict.get`. -/
def oldLookup (pairs : List (String × String)) (k : String) : String :=
  (pairs.foldl (fun acc p => if p.1 = k then some p.2 else acc) none).getD ""

/-- The per-hunk record emission of `parse_po_diff` (source lines 232-259):
keep the post-image pairs whose value is non-empty and differs from the
pre-image lookup value, tagged with the locale. -/
def hunkRecords (locale : String) (hunk : List DiffLine) : List (String × String × String) :=
  let newPairs := _extract_pairs_from_lines (plusLines hunk)
  let oldPairs := _extract_pairs_from_lines (minusLines hunk)
  (newPairs.filter
      (fun p => !(p.2 == "") && !(p.2 == oldLookup oldPairs p.1))).map
    (fun p => (locale, p.1, p.2))

/-- Regex word character (for the word-boundary assertion): alphanumeric or
underscore. -/
def isWordChar (c : Char) : Bool := c.isAlphanum || c = '_'

/-- One anchored attempt of the path regex of `parse_po_diff` (source line
226) at the start of `s`: literal `locale/`, a nonempty slash-free segment,
literal `/electrum.po`, then a word boundary.  Returns the captured
segment. -/
def tryLocaleAt (s : List Char) : Option (List Char) :=
  match dropPrefixL "locale/".toList s with
  | none => none
  | some r1 =>
    let seg := r1.takeWhile (fun c => c != '/')
    if seg = [] then none
    else
      match dropPrefixL "/electrum.po".toList (r1.drop seg.length) with
      | none => none
      | some rest =>
        match rest with
        | [] => some seg
        | c :: _ => if isWordChar c then none else some seg

/-- Model of `re.search` for the path regex: try each start position left to
right and return the first (leftmost) captured locale segment. -/
def findLocaleMatch : List Char → Option (List Char)
  | [] => none
  | c :: rest =>
    match tryLocaleAt (c :: rest) with
    | some seg => some seg
    | none => findLocaleMatch rest

/-- `parse_po_diff` of the source, taken at the output of the external
unidiff `PatchSet` parser: for each file whose path matches the locale
pattern, emit the per-hunk changed-translation records in order. -/
def parse_po_diff (files : List PatchedFile) : List (String × String × String) :=
  files.flatMap (fun f =>
    match findLocaleMatch f.path.toList with
    | none => []
    | some seg => f.hunks.flatMap (fun h => hunkRecords (String.mk seg) h))

/-- Outcome of one attempt of the classifier HTTP call, as seen by the
retry loop of `call_openai_async`: either a 200 response with a text
payload, or any raised failure (network error, non-200 status, malformed
body). -/
inductive Outcome where
  | ok (payload : String)
  | exc
deriving DecidableEq

/-- Model of Python `str.strip`: drop whitespace from both ends. -/
def pyStripChars (l : List Char) : List Char :=
  ((l.dropWhile Char.isWhitespace).reverse.dropWhile Char.isWhitespace).reverse

/-- The response normalization of `call_openai_async` (source line 359):
strip then lowercase the payload. -/
def normalizeResponse (s : String) : String :=
  String.mk ((pyStripChars s.toList).map Char.toLower)

/-- One attempt body of the retry loop (source lines 353-361): a raised
failure yields no result; a payload yields its normalized form only when it
is one of the two recognized tokens, the assertion failure on any other
payload being caught as a failure. -/
def processAttempt : Outcome → Option String
  | Outcome.ok payload =>
    let r := normalizeResponse payload
    if r = "genuine" ∨ r = "spam" then some r else none
  | Outcome.exc => none

/-- The retry loop of `call_openai_async` over a finite prefix of attempt
outcomes: return the first recognized normalized response together with the
number of retry-delay sleeps taken before it (one sleep per failed
attempt); `none` when every provided attempt failed (the loop is still
retrying). -/
def call_openai_async : List Outcome → Option (String × Nat)
  | [] => none
  | a :: rest =>
    match processAttempt a with
    | some r => some (r, 0)
    | none => (call_openai_async rest).map (fun p => (p.1, p.2 + 1))

/-- The verdict mapping of `classify_translation_async` (source lines
380-382): `Genuine` when the response contains the substring `genuine`,
else `Spam`. -/
def classifyVerdict (response : String) : String :=
  if containsSub response.toList "genuine".toList then "Genuine" else "Spam"

/-- `classify_translation_async` of the source over a finite prefix of
attempt outcomes: the retry loop's result mapped through the verdict
mapping, keeping the retry count. -/
def classify_translation_async (attempts : List Outcome) : Option (String × Nat) :=
  (call_openai_async attempts).map (fun p => (classifyVerdict p.1, p.2))

/-- Model of `asyncio.gather` over per-record classification results: all
must have completed for the orchestration to return, and the order of the
verdict list follows the input record order. -/
def gatherAll : List (Option String) → Option (List String)
  | [] => some []
  | o :: rest =>
    match o with
    | none => none
    | some v =>
      match gatherAll rest with
      | none => none
      | some vs => some (v :: vs)

/-- The orchestration of `scan_diff_async` (source lines 280-293): one
classification per change record, gathered; record `i` draws its attempt
outcomes from `outs i`. -/
def scan_diff_async (records : List (String × String × String))
    (outs : Nat → List Outcome) : Option (List String) :=
  gatherAll ((List.range records.length).map
    (fun i => (classify_translation_async (outs i)).map Prod.fst))

/-- Attempt outcomes in which the first `N` attempts fail and attempt `N`
succeeds with a recognized payload. -/
def succeedsAt (attempts : List Outcome) (N : Nat) : Prop :=
  (∀ j, j < N → ∃ a, attempts.get? j = some a ∧ processAttempt a = none) ∧
  ∃ a r, attempts.get? N = some a ∧ processAttempt a = some r

/-- Modelled from the spec: state of the bounded-admission orchestration of
`run_diff_check_async`/`classify_translation_async`, whose admission
discipline lives in the external `asyncio.Semaphore`: the free permit
count, the FIFO queue of submitted-but-not-admitted classifications, and
the classifications currently in flight. -/
structure OrchState where
  permits : Nat
  waiting : List Nat
  running : List Nat
deriving DecidableEq

/-- Modelled from the spec: one scheduler step of the orchestration.  A
classification may be submitted (it joins the tail of the queue), admitted
(only the queue head, and only when a permit is free), or finished
(returning its permit). -/
inductive OrchStep (K : Nat) : OrchState → OrchState → Prop where
  | submit (s : OrchState) (t : Nat) :
      OrchStep K s ⟨s.permits, s.waiting ++ [t], s.running⟩
  | acquire (s : OrchState) (t : Nat) (w : List Nat) :
      0 < s.permits → s.waiting = t :: w →
      OrchStep K s ⟨s.permits - 1, w, s.running ++ [t]⟩
  | finish (s : OrchState) (t : Nat) :
      t ∈ s.running →
      OrchStep K s ⟨s.permits + 1, s.waiting, s.running.erase t⟩

/-- The orchestration start state: all `K` permits free, nothing queued or
in flight. -/
def orchInit (K : Nat) : OrchState := ⟨K, [], []⟩

/-- Orchestration states reachable from the start state by scheduler
steps. -/
def orchReachable (K : Nat) (s : OrchState) : Prop :=
  Relation.ReflTransGen (OrchStep K) (orchInit K) s

/-- Concrete hunk of the end-to-end scenario: context line `msgid "Wallet"`,
removed line `msgstr ""`, added line `msgstr "Geldbeutel"`. -/
def walletHunk : List DiffLine :=
  [⟨LineTag.context, "msgid \"Wallet\"\n"⟩,
   ⟨LineTag.removed, "msgstr \"\"\n"⟩,
   ⟨LineTag.added, "msgstr \"Geldbeutel\"\n"⟩]

/-- Concrete diff file of the end-to-end scenario: the eligible path
`locale/de_DE/electrum.po` with the single wallet hunk. -/
def walletFile : PatchedFile := ⟨"locale/de_DE/electrum.po", [walletHunk]⟩

/-! ### Helper lemmas -/

theorem dropPrefixL_eq_some : ∀ (p s r : List Char), dropPrefixL p s = some r ↔ s = p ++ r := by
  intro p
  induction p with
  | nil => intro s r; simp [dropPrefixL]
  | cons a ps ih =>
    intro s r
    cases s with
    | nil => simp [dropPrefixL]
    | cons c cs =>
      by_cases hc : c = a
      · subst hc; simp [dropPrefixL, ih]
      · simp [dropPrefixL, hc]

theorem pyStartsWith_iff {s p : String} : pyStartsWith s p = true ↔ ∃ r, s.toList = p.toList ++ r := by
  unfold pyStartsWith
  constructor
  · intro h
    cases hd : dropPrefixL p.toList s.toList with
    | none => rw [hd] at h; simp at h
    | some r => exact ⟨r, (dropPrefixL_eq_some _ _ _).mp hd⟩
  · rintro ⟨r, hr⟩
    rw [(dropPrefixL_eq_some _ _ _).mpr hr]
    rfl

theorem msgid_not_msgstr {s : String} (h : pyStartsWith s "msgid \"" = true) :
    pyStartsWith s "msgstr \"" = false := by
  by_contra hc
  rw [Bool.not_eq_false] at hc
  obtain ⟨r1, h1⟩ := pyStartsWith_iff.mp h
  obtain ⟨r2, h2⟩ := pyStartsWith_iff.mp hc
  rw [h1] at h2
  have e1 : "msgid \"".toList = ['m', 's', 'g', 'i', 'd', ' ', '"'] := rfl
  have e2 : "msgstr \"".toList = ['m', 's', 'g', 's', 't', 'r', ' ', '"'] := rfl
  rw [e1, e2] at h2
  simp at h2

theorem dropWhile_length_le {α : Type} (p : α → Bool) : ∀ (l : List α),
    (l.dropWhile p).length ≤ l.length := by
  intro l
  induction l with
  | nil => simp
  | cons a t ih =>
    by_cases h : p a
    · rw [List.dropWhile_cons_of_pos h]
      exact Nat.le_succ_of_le ih
    · rw [List.dropWhile_cons_of_neg h]

theorem takeContsPo_length : ∀ (ls : List String), (takeContsPo ls).2.length ≤ ls.length := by
  intro ls
  induction ls with
  | nil => simp [takeContsPo]
  | cons l rest ih =>
    simp only [takeContsPo]
    cases contQuoted l with
    | some s => simpa using Nat.le_succ_of_le ih
    | none => simp

theorem epsl_length (l : String) (rest : List String) :
    ((_extract_po_string_lines (l :: rest)).2).length ≤ rest.length := by
  simp only [_extract_po_string_lines]
  cases firstQuoted l with
  | none => simp
  | some s => simpa using takeContsPo_length rest

theorem extractMsgstr_length : ∀ (r : List String), ((extractMsgstr r).2).length ≤ r.length := by
  intro r
  cases r with
  | nil => simp [extractMsgstr]
  | cons l rest =>
    simp only [extractMsgstr]
    by_cases hm : pyStartsWith l "msgstr \""
    · simp only [hm, if_true]
      exact Nat.le_succ_of_le (epsl_length l rest)
    · simp only [hm, if_false]
      have hdw : ((l :: rest).dropWhile
          (fun x => !(pyStartsWith x "msgstr \"") && !(pyStartsWith x "msgid \""))).length
          ≤ (l :: rest).length := dropWhile_length_le _ _
      cases hsk : (l :: rest).dropWhile
          (fun x => !(pyStartsWith x "msgstr \"") && !(pyStartsWith x "msgid \"")) with
      | nil => simp
      | cons l2 rest2 =>
        rw [hsk] at hdw
        by_cases hm2 : pyStartsWith l2 "msgstr \""
        · simp only [hm2, if_true]
          have h1 := epsl_length l2 rest2
          have h2 : rest2.length + 1 ≤ rest.length + 1 := hdw
          exact Nat.le_trans h1 (Nat.le_trans (Nat.le_succ _) h2)
        · simp only [hm2, if_false]
          exact hdw

theorem extractPairsF_nil : ∀ (f : Nat), extractPairsF f [] = [] := by
  intro f; cases f <;> rfl

theorem extractPairsF_cons (fuel : Nat) (l : String) (rest : List String) :
    extractPairsF (fuel + 1) (l :: rest) =
      if pyStartsWith l "msgid \"" then
        (if (_extract_po_string_lines (l :: rest)).1 ≠ "" then
          ((_extract_po_string_lines (l :: rest)).1,
            (extractMsgstr (_extract_po_string_lines (l :: rest)).2).1)
            :: extractPairsF fuel (extractMsgstr (_extract_po_string_lines (l :: rest)).2).2
        else extractPairsF fuel (extractMsgstr (_extract_po_string_lines (l :: rest)).2).2)
      else extractPairsF fuel rest := rfl

theorem extractPairsF_congr : ∀ (f1 f2 : Nat) (lines : List String),
    lines.length ≤ f1 → lines.length ≤ f2 → extractPairsF f1 lines = extractPairsF f2 lines := by
  intro f1
  induction f1 with
  | zero =>
    intro f2 lines h1 _
    have hnil : lines = [] := List.eq_nil_of_length_eq_zero (Nat.le_zero.mp h1)
    subst hnil
    rw [extractPairsF_nil, extractPairsF_nil]
  | succ n ih =>
    intro f2 lines h1 h2
    cases lines with
    | nil => rw [extractPairsF_nil, extractPairsF_nil]
    | cons l rest =>
      cases f2 with
      | zero => exact absurd h2 (by simp)
      | succ m =>
        rw [extractPairsF_cons, extractPairsF_cons]
        have hr : rest.length ≤ n := Nat.succ_le_succ_iff.mp h1
        have hr2 : rest.length ≤ m := Nat.succ_le_succ_iff.mp h2
        have hms : (extractMsgstr (_extract_po_string_lines (l :: rest)).2).2.length ≤ rest.length :=
          Nat.le_trans (extractMsgstr_length _) (epsl_length l rest)
        by_cases hstart : pyStartsWith l "msgid \"" = true
        · rw [if_pos hstart, if_pos hstart]
          by_cases hmid : (_extract_po_string_lines (l :: rest)).1 ≠ ""
          · rw [if_pos hmid, if_pos hmid,
              ih _ _ (Nat.le_trans hms hr) (Nat.le_trans hms hr2)]
          · rw [if_neg hmid, if_neg hmid,
              ih _ _ (Nat.le_trans hms hr) (Nat.le_trans hms hr2)]
        · rw [if_neg hstart, if_neg hstart, ih _ _ hr hr2]

theorem extractPairsF_eq (fuel : Nat) (lines : List String) (h : lines.length ≤ fuel) :
    extractPairsF fuel lines = _extract_pairs_from_lines lines :=
  extractPairsF_congr fuel lines.length lines h (Nat.le_refl _)

theorem extract_pairs_cons (l : String) (rest : List String) :
    _extract_pairs_from_lines (l :: rest) =
      if pyStartsWith l "msgid \"" then
        (if (_extract_po_string_lines (l :: rest)).1 ≠ "" then
          ((_extract_po_string_lines (l :: rest)).1,
            (extractMsgstr (_extract_po_string_lines (l :: rest)).2).1)
            :: _extract_pairs_from_lines (extractMsgstr (_extract_po_string_lines (l :: rest)).2).2
        else _extract_pairs_from_lines (extractMsgstr (_extract_po_string_lines (l :: rest)).2).2)
      else _extract_pairs_from_lines rest := by
  have hms : (extractMsgstr (_extract_po_string_lines (l :: rest)).2).2.length ≤ rest.length :=
    Nat.le_trans (extractMsgstr_length _) (epsl_length l rest)
  show extractPairsF (rest.length + 1) (l :: rest) = _
  rw [extractPairsF_cons, extractPairsF_eq rest.length _ hms,
    extractPairsF_eq rest.length rest (Nat.le_refl _)]

theorem extractPairsF_length : ∀ (fuel : Nat) (lines : List String),
    (extractPairsF fuel lines).length ≤ lines.length := by
  intro fuel
  induction fuel with
  | zero => intro lines; rw [show extractPairsF 0 lines = [] from rfl]; simp
  | succ n ih =>
    intro lines
    cases lines with
    | nil => rw [extractPairsF_nil]; simp
    | cons l rest =>
      rw [extractPairsF_cons]
      have hms : (extractMsgstr (_extract_po_string_lines (l :: rest)).2).2.length ≤ rest.length :=
        Nat.le_trans (extractMsgstr_length _) (epsl_length l rest)
      by_cases hstart : pyStartsWith l "msgid \"" = true
      · rw [if_pos hstart]
        by_cases hmid : (_extract_po_string_lines (l :: rest)).1 ≠ ""
        · rw [if_pos hmid]
          simp only [List.length_cons]
          exact Nat.succ_le_succ (Nat.le_trans (ih _) hms)
        · rw [if_neg hmid]
          exact Nat.le_succ_of_le (Nat.le_trans (ih _) hms)
      · rw [if_neg hstart]
        exact Nat.le_succ_of_le (ih rest)

theorem extractPairsF_key_ne : ∀ (fuel : Nat) (lines : List String) (p : String × String),
    p ∈ extractPairsF fuel lines → p.1 ≠ "" := by
  intro fuel
  induction fuel with
  | zero => intro lines p hp; rw [show extractPairsF 0 lines = [] from rfl] at hp; simp at hp
  | succ n ih =>
    intro lines p hp
    cases lines with
    | nil => rw [extractPairsF_nil] at hp; simp at hp
    | cons l rest =>
      rw [extractPairsF_cons] at hp
      by_cases hstart : pyStartsWith l "msgid \"" = true
      · rw [if_pos hstart] at hp
        by_cases hmid : (_extract_po_string_lines (l :: rest)).1 ≠ ""
        · rw [if_pos hmid] at hp
          rcases List.mem_cons.mp hp with h | h
          · rw [h]; exact hmid
          · exact ih _ _ h
        · rw [if_neg hmid] at hp
          exact ih _ _ hp
      · rw [if_neg hstart] at hp
        exact ih _ _ hp

theorem mem_hunkRecords {loc : String} {hunk : List DiffLine} {r : String × String × String}
    (h : r ∈ hunkRecords loc hunk) :
    ∃ p ∈ _extract_pairs_from_lines (plusLines hunk),
      p.2 ≠ "" ∧ p.2 ≠ oldLookup (_extract_pairs_from_lines (minusLines hunk)) p.1 ∧
      r = (loc, p.1, p.2) := by
  simp only [hunkRecords, List.mem_map, List.mem_filter] at h
  obtain ⟨p, ⟨hpm, hq⟩, hr⟩ := h
  rw [Bool.and_eq_true, Bool.not_eq_true', beq_eq_false_iff_ne, Bool.not_eq_true',
    beq_eq_false_iff_ne] at hq
  exact ⟨p, hpm, hq.1, hq.2, hr.symm⟩

theorem mem_parse_po_diff {files : List PatchedFile} {r : String × String × String}
    (h : r ∈ parse_po_diff files) :
    ∃ f ∈ files, ∃ seg, findLocaleMatch f.path.toList = some seg ∧
      ∃ hunk ∈ f.hunks, r ∈ hunkRecords (String.mk seg) hunk := by
  unfold parse_po_diff at h
  rw [List.mem_flatMap] at h
  obtain ⟨f, hf, hr⟩ := h
  cases hm : findLocaleMatch f.path.toList with
  | none => rw [hm] at hr; simp at hr
  | some seg =>
    rw [hm, List.mem_flatMap] at hr
    obtain ⟨hunk, hh, hrh⟩ := hr
    exact ⟨f, hf, seg, hm, hunk, hh, hrh⟩

theorem dropWhile_head_not_msgstr : ∀ (r1 : List String),
    (∀ x ∈ r1.takeWhile (fun y => !(pyStartsWith y "msgid \"")),
      pyStartsWith x "msgstr \"" = false) →
    ∀ x rest2, r1.dropWhile
        (fun y => !(pyStartsWith y "msgstr \"") && !(pyStartsWith y "msgid \"")) = x :: rest2 →
    pyStartsWith x "msgstr \"" = false := by
  intro r1
  induction r1 with
  | nil => intro _ x rest2 hd; simp at hd
  | cons l rest ih =>
    intro h x rest2 hd
    by_cases hmsgid : pyStartsWith l "msgid \"" = true
    · rw [List.dropWhile_cons_of_neg (by simp [hmsgid])] at hd
      injection hd with h1 h2
      rw [← h1]
      exact msgid_not_msgstr hmsgid
    · by_cases hmsgstr : pyStartsWith l "msgstr \"" = true
      · have hl : l ∈ (l :: rest).takeWhile (fun y => !(pyStartsWith y "msgid \"")) := by
          rw [List.takeWhile_cons_of_pos (by simp [hmsgid])]
          exact List.mem_cons_self _ _
        rw [h l hl] at hmsgstr
        exact absurd hmsgstr (by simp)
      · have h1 : pyStartsWith l "msgstr \"" = false := by
          simpa using hmsgstr
        have h2 : pyStartsWith l "msgid \"" = false := by
          simpa using hmsgid
        rw [List.dropWhile_cons_of_pos (by simp [h1, h2])] at hd
        refine ih ?_ x rest2 hd
        intro y hy
        apply h
        rw [List.takeWhile_cons_of_pos (by simp [hmsgid])]
        exact List.mem_cons_of_mem _ hy

theorem extractMsgstr_no_msgstr (r1 : List String)
    (h : ∀ x ∈ r1.takeWhile (fun y => !(pyStartsWith y "msgid \"")),
      pyStartsWith x "msgstr \"" = false) :
    extractMsgstr r1 =
      ("", r1.dropWhile (fun x => !(pyStartsWith x "msgstr \"") && !(pyStartsWith x "msgid \""))) := by
  cases r1 with
  | nil => rfl
  | cons l rest =>
    have hlm : pyStartsWith l "msgstr \"" = false := by
      by_cases hmsgid : pyStartsWith l "msgid \"" = true
      · exact msgid_not_msgstr hmsgid
      · apply h
        rw [List.takeWhile_cons_of_pos (by simp [hmsgid])]
        exact List.mem_cons_self _ _
    simp only [extractMsgstr]
    rw [if_neg (by simp [hlm])]
    cases hsk : (l :: rest).dropWhile
        (fun x => !(pyStartsWith x "msgstr \"") && !(pyStartsWith x "msgid \"")) with
    | nil => rfl
    | cons l2 rest2 =>
      have h2 : pyStartsWith l2 "msgstr \"" = false :=
        dropWhile_head_not_msgstr (l :: rest) h l2 rest2 hsk
      simp [h2]

theorem call_openai_retry (a : Outcome) (rest : List Outcome) (h : processAttempt a = none) :
    call_openai_async (a :: rest) = (call_openai_async rest).map (fun p => (p.1, p.2 + 1)) := by
  simp only [call_openai_async, h]

theorem processAttempt_unrecognized (payload : String)
    (h1 : normalizeResponse payload ≠ "genuine") (h2 : normalizeResponse payload ≠ "spam") :
    processAttempt (Outcome.ok payload) = none := by
  simp only [processAttempt]
  rw [if_neg]
  rintro (h | h) <;> [exact h1 h; exact h2 h]

theorem call_openai_async_sound : ∀ (attempts : List Outcome) (r : String) (n : Nat),
    call_openai_async attempts = some (r, n) →
    (r = "genuine" ∨ r = "spam") ∧
    ∃ payload, attempts.get? n = some (Outcome.ok payload) ∧ normalizeResponse payload = r := by
  intro attempts
  induction attempts with
  | nil => intro r n h; simp [call_openai_async] at h
  | cons a rest ih =>
    intro r n h
    simp only [call_openai_async] at h
    cases hp : processAttempt a with
    | some v =>
      rw [hp] at h
      rw [Option.some_inj, Prod.mk.injEq] at h
      obtain ⟨hv, hn⟩ := h
      cases a with
      | exc => exact absurd hp (by simp [processAttempt])
      | ok payload =>
        simp only [processAttempt] at hp
        by_cases ht : normalizeResponse payload = "genuine" ∨ normalizeResponse payload = "spam"
        · rw [if_pos ht] at hp
          rw [Option.some_inj] at hp
          subst hp
          subst hv
          subst hn
          exact ⟨ht, payload, rfl, rfl⟩
        · rw [if_neg ht] at hp
          exact absurd hp (by simp)
    | none =>
      rw [hp] at h
      cases hc : call_openai_async rest with
      | none => rw [hc] at h; exact absurd h (by simp)
      | some p =>
        rw [hc] at h
        simp only [Option.map_some', Option.some_inj, Prod.mk.injEq] at h
        obtain ⟨h1, h2⟩ := h
        obtain ⟨htok, payload, hg, hnm⟩ := ih p.1 p.2 (by rw [hc])
        subst h1
        subst h2
        exact ⟨htok, payload, by simpa using hg, hnm⟩

theorem call_openai_succeedsAt : ∀ (N : Nat) (attempts : List Outcome), succeedsAt attempts N →
    ∃ r, call_openai_async attempts = some (r, N) := by
  intro N
  induction N with
  | zero =>
    intro attempts h
    obtain ⟨-, a, r, ha, hr⟩ := h
    cases attempts with
    | nil => simp at ha
    | cons a0 rest =>
      have ha0 : a = a0 := by simpa using ha.symm
      subst ha0
      exact ⟨r, by simp [call_openai_async, hr]⟩
  | succ n ih =>
    intro attempts h
    obtain ⟨hfail, a, r, ha, hr⟩ := h
    cases attempts with
    | nil => simp at ha
    | cons a0 rest =>
      have h0 : processAttempt a0 = none := by
        obtain ⟨b, hb, hbn⟩ := hfail 0 (Nat.succ_pos n)
        have : b = a0 := by simpa using hb.symm
        rw [← this]
        exact hbn
      have hrec : succeedsAt rest n := by
        constructor
        · intro j hj
          obtain ⟨b, hb, hbn⟩ := hfail (j + 1) (Nat.succ_lt_succ hj)
          exact ⟨b, by simpa using hb, hbn⟩
        · exact ⟨a, r, by simpa using ha, hr⟩
      obtain ⟨r', hr'⟩ := ih rest hrec
      exact ⟨r', by simp [call_openai_async, h0, hr']⟩

theorem gatherAll_isSome : ∀ (l : List (Option String)), (∀ o ∈ l, o.isSome = true) →
    ∃ vs, gatherAll l = some vs ∧ vs.length = l.length := by
  intro l
  induction l with
  | nil => intro _; exact ⟨[], rfl, rfl⟩
  | cons o rest ih =>
    intro h
    obtain ⟨v, hv⟩ := Option.isSome_iff_exists.mp (h o (List.mem_cons_self _ _))
    obtain ⟨vs, hvs, hlen⟩ := ih (fun x hx => h x (List.mem_cons_of_mem _ hx))
    exact ⟨v :: vs, by simp [gatherAll, hv, hvs], by simp [hlen]⟩

theorem orchStep_invariant {K : Nat} {s s' : OrchState} (hstep : OrchStep K s s')
    (hinv : s.permits + s.running.length = K) : s'.permits + s'.running.length = K := by
  cases hstep with
  | submit t => exact hinv
  | acquire t w hp hw =>
    show s.permits - 1 + (s.running ++ [t]).length = K
    rw [List.length_append]
    simp only [List.length_cons, List.length_nil]
    omega
  | finish t ht =>
    show s.permits + 1 + (s.running.erase t).length = K
    rw [List.length_erase_of_mem ht]
    have hpos : 0 < s.running.length := List.length_pos.mpr (List.ne_nil_of_mem ht)
    omega

theorem orchReachable_invariant {K : Nat} {s : OrchState} (h : orchReachable K s) :
    s.permits + s.running.length = K := by
  induction h with
  | refl => simp [orchInit]
  | tail _ hstep ih => exact orchStep_invariant hstep ih

theorem takeWhile_ne_slash : ∀ (seg rest : List Char), (∀ c ∈ seg, c ≠ '/') →
    (seg ++ '/' :: rest).takeWhile (fun c => c != '/') = seg := by
  intro seg
  induction seg with
  | nil =>
    intro rest _
    rw [List.nil_append, List.takeWhile_cons_of_neg (by simp)]
  | cons a as ih =>
    intro rest h
    have ha : a ≠ '/' := h a (List.mem_cons_self _ _)
    rw [List.cons_append, List.takeWhile_cons_of_pos (by simp [ha]),
      ih rest (fun c hc => h c (List.mem_cons_of_mem _ hc))]

theorem tryLocaleAt_sound {s seg : List Char} (h : tryLocaleAt s = some seg) :
    ∃ post, s = "locale/".toList ++ (seg ++ ("/electrum.po".toList ++ post)) ∧
      seg ≠ [] ∧ (∀ c ∈ seg, c ≠ '/') ∧
      (post = [] ∨ ∃ c rest, post = c :: rest ∧ isWordChar c = false) := by
  simp only [tryLocaleAt] at h
  cases h1 : dropPrefixL "locale/".toList s with
  | none => rw [h1] at h; exact absurd h (by simp)
  | some r1 =>
    rw [h1] at h
    dsimp only [] at h
    have hs : s = "locale/".toList ++ r1 := (dropPrefixL_eq_some _ _ _).mp h1
    set w := r1.takeWhile (fun c => c != '/') with hwdef
    by_cases hseg : w = []
    · rw [if_pos hseg] at h; exact absurd h (by simp)
    · rw [if_neg hseg] at h
      cases h2 : dropPrefixL "/electrum.po".toList (r1.drop w.length) with
      | none => rw [h2] at h; exact absurd h (by simp)
      | some rest =>
        rw [h2] at h
        dsimp only [] at h
        obtain ⟨t, ht⟩ := List.takeWhile_prefix (l := r1) (p := fun c => c != '/')
        rw [← hwdef] at ht
        have hdrop : r1.drop w.length = t := by
          rw [← ht, List.drop_left]
        have hdropeq : r1.drop w.length = "/electrum.po".toList ++ rest :=
          (dropPrefixL_eq_some _ _ _).mp h2
        have hteq : t = "/electrum.po".toList ++ rest := by
          rw [← hdrop, hdropeq]
        have hr1 : r1 = w ++ ("/electrum.po".toList ++ rest) := by
          rw [← ht, hteq]
        have hmem : ∀ c ∈ w, c ≠ '/' := by
          intro c hc
          rw [hwdef] at hc
          simpa using List.mem_takeWhile_imp hc
        cases rest with
        | nil =>
          dsimp only [] at h
          rw [Option.some_inj] at h
          subst h
          exact ⟨[], by rw [hs, hr1], hseg, hmem, Or.inl rfl⟩
        | cons c rrest =>
          dsimp only [] at h
          by_cases hw : isWordChar c = true
          · rw [if_pos hw] at h; exact absurd h (by simp)
          · rw [if_neg hw] at h
            rw [Option.some_inj] at h
            subst h
            exact ⟨c :: rrest, by rw [hs, hr1], hseg, hmem,
              Or.inr ⟨c, rrest, rfl, by simpa using hw⟩⟩

theorem tryLocaleAt_complete (seg post : List Char) (hne : seg ≠ [])
    (hslash : ∀ c ∈ seg, c ≠ '/')
    (hb : post = [] ∨ ∃ c rest, post = c :: rest ∧ isWordChar c = false) :
    tryLocaleAt ("locale/".toList ++ (seg ++ ("/electrum.po".toList ++ post))) = some seg := by
  simp only [tryLocaleAt]
  rw [(dropPrefixL_eq_some "locale/".toList _ _).mpr rfl]
  dsimp only []
  rw [show seg ++ ("/electrum.po".toList ++ post) =
    seg ++ '/' :: ("electrum.po".toList ++ post) from rfl]
  rw [takeWhile_ne_slash seg _ hslash, if_neg hne, List.drop_left]
  rw [show ('/' :: ("electrum.po".toList ++ post)) = "/electrum.po".toList ++ post from rfl]
  rw [(dropPrefixL_eq_some "/electrum.po".toList _ _).mpr rfl]
  dsimp only []
  rcases hb with rfl | ⟨c, rest, rfl, hw⟩
  · rfl
  · dsimp only []
    rw [if_neg (by simp [hw])]

theorem findLocaleMatch_sound : ∀ (p seg : List Char), findLocaleMatch p = some seg →
    ∃ pre post, p = pre ++ ("locale/".toList ++ (seg ++ ("/electrum.po".toList ++ post))) ∧
      seg ≠ [] ∧ (∀ c ∈ seg, c ≠ '/') ∧
      (post = [] ∨ ∃ c rest, post = c :: rest ∧ isWordChar c = false) := by
  intro p
  induction p with
  | nil => intro seg h; simp [findLocaleMatch] at h
  | cons c rest ih =>
    intro seg h
    simp only [findLocaleMatch] at h
    cases ht : tryLocaleAt (c :: rest) with
    | some s2 =>
      rw [ht, Option.some_inj] at h
      subst h
      obtain ⟨post, hp, h1, h2, h3⟩ := tryLocaleAt_sound ht
      exact ⟨[], post, by rw [List.nil_append, ← hp], h1, h2, h3⟩
    | none =>
      rw [ht] at h
      obtain ⟨pre, post, hp, h1, h2, h3⟩ := ih seg h
      exact ⟨c :: pre, post, by rw [List.cons_append, ← hp], h1, h2, h3⟩

theorem findLocaleMatch_complete : ∀ (pre seg post : List Char), seg ≠ [] →
    (∀ c ∈ seg, c ≠ '/') →
    (post = [] ∨ ∃ c rest, post = c :: rest ∧ isWordChar c = false) →
    ∃ seg2, findLocaleMatch
      (pre ++ ("locale/".toList ++ (seg ++ ("/electrum.po".toList ++ post)))) = some seg2 := by
  intro pre
  induction pre with
  | nil =>
    intro seg post hne hslash hb
    rw [List.nil_append]
    rw [show "locale/".toList ++ (seg ++ ("/electrum.po".toList ++ post)) =
      'l' :: ("ocale/".toList ++ (seg ++ ("/electrum.po".toList ++ post))) from rfl]
    simp only [findLocaleMatch]
    rw [show 'l' :: ("ocale/".toList ++ (seg ++ ("/electrum.po".toList ++ post))) =
      "locale/".toList ++ (seg ++ ("/electrum.po".toList ++ post)) from rfl]
    rw [tryLocaleAt_complete seg post hne hslash hb]
    exact ⟨seg, rfl⟩
  | cons c pre' ih =>
    intro seg post hne hslash hb
    rw [List.cons_append]
    simp only [findLocaleMatch]
    cases ht : tryLocaleAt
        (c :: (pre' ++ ("locale/".toList ++ (seg ++ ("/electrum.po".toList ++ post))))) with
    | some s2 => exact ⟨s2, rfl⟩
    | none => exact ih seg post hne hslash hb

/-! ### Claim theorems -/

/-- C1: for a unified diff with exactly one eligible file at path
`locale/de_DE/electrum.po` and one hunk in which, under the context line
`msgid "Wallet"`, the line `msgstr ""` is removed and `msgstr "Geldbeutel"`
is added, `parse_po_diff` returns exactly the one-element sequence
`[("de_DE", "Wallet", "Geldbeutel")]`, and the pre-image (old) value of the
key `Wallet` in that hunk is the empty string. -/
theorem C1_wallet_end_to_end :
    parse_po_diff [walletFile] = [("de_DE", "Wallet", "Geldbeutel")] ∧
    oldLookup (_extract_pairs_from_lines (minusLines walletHunk)) "Wallet" = "" := by
  constructor
  · rfl
  · rfl

/-- C2: every record emitted by `parse_po_diff` has a non-empty new value,
and within each hunk every emitted record's new value differs from the value
associated with its key in the hunk's pre-image lookup (an absent key being
treated as the empty value); hence no record is emitted for an empty or
unchanged post-image entry. -/
theorem C2_records_nonempty_and_changed :
    (∀ (files : List PatchedFile) (r : String × String × String),
      r ∈ parse_po_diff files → r.2.2 ≠ "") ∧
    (∀ (loc : String) (hunk : List DiffLine) (r : String × String × String),
      r ∈ hunkRecords loc hunk →
        r.2.2 ≠ "" ∧
        r.2.2 ≠ oldLookup (_extract_pairs_from_lines (minusLines hunk)) r.2.1) := by
  constructor
  · intro files r hr
    obtain ⟨f, -, seg, -, hunk, -, hrh⟩ := mem_parse_po_diff hr
    obtain ⟨p, -, hne, -, hreq⟩ := mem_hunkRecords hrh
    rw [hreq]
    exact hne
  · intro loc hunk r hr
    obtain ⟨p, -, hne, hdiff, hreq⟩ := mem_hunkRecords hr
    rw [hreq]
    exact ⟨hne, hdiff⟩

/-- Witness for C2 at the concrete wallet diff. -/
theorem C2_witness :
    (("de_DE", "Wallet", "Geldbeutel") : String × String × String).2.2 ≠ "" ∧
    ((("de_DE", "Wallet", "Geldbeutel") : String × String × String).2.2 ≠ "" ∧
      (("de_DE", "Wallet", "Geldbeutel") : String × String × String).2.2 ≠
        oldLookup (_extract_pairs_from_lines (minusLines walletHunk))
          (("de_DE", "Wallet", "Geldbeutel") : String × String × String).2.1) :=
  ⟨C2_records_nonempty_and_changed.1 [walletFile] _ (by decide),
   C2_records_nonempty_and_changed.2 "de_DE" walletHunk _ (by decide)⟩

/-- C3: a classifier payload whose trimmed, lowercased form is neither
exactly `genuine` nor exactly `spam` makes the attempt fail (the assertion
failure is caught), any failed attempt is retried after one retry-delay
sleep, every result of the retry loop is one of the two recognized tokens
and stems from the payload of the attempt that succeeded, and the verdict
mapping turns `genuine` into `Genuine` and `spam` into `Spam`. -/
theorem C3_unrecognized_payload_retried :
    (∀ payload : String, normalizeResponse payload ≠ "genuine" →
      normalizeResponse payload ≠ "spam" →
      processAttempt (Outcome.ok payload) = none) ∧
    (∀ (a : Outcome) (rest : List Outcome), processAttempt a = none →
      call_openai_async (a :: rest) =
        (call_openai_async rest).map (fun p => (p.1, p.2 + 1))) ∧
    (∀ (attempts : List Outcome) (r : String) (n : Nat),
      call_openai_async attempts = some (r, n) →
      (r = "genuine" ∨ r = "spam") ∧
      ∃ payload, attempts.get? n = some (Outcome.ok payload) ∧
        normalizeResponse payload = r) ∧
    (classifyVerdict "genuine" = "Genuine" ∧ classifyVerdict "spam" = "Spam") :=
  ⟨processAttempt_unrecognized, call_openai_retry, call_openai_async_sound,
    by decide, by decide⟩

/-- Witness for C3 at concrete payloads. -/
theorem C3_witness :
    processAttempt (Outcome.ok "maybe") = none ∧
    call_openai_async (Outcome.ok "maybe" :: [Outcome.ok "Spam"]) =
      (call_openai_async [Outcome.ok "Spam"]).map (fun p => (p.1, p.2 + 1)) ∧
    (("spam" = "genuine" ∨ ("spam" : String) = "spam") ∧
      ∃ payload, [Outcome.ok " SPAM "].get? 0 = some (Outcome.ok payload) ∧
        normalizeResponse payload = "spam") :=
  ⟨C3_unrecognized_payload_retried.1 "maybe" (by decide) (by decide),
   C3_unrecognized_payload_retried.2.1 (Outcome.ok "maybe") [Outcome.ok "Spam"] (by decide),
   C3_unrecognized_payload_retried.2.2.1 [Outcome.ok " SPAM "] "spam" 0 (by decide)⟩

/-- C4: when an attempt-outcome sequence fails on its first `N` attempts and
succeeds on attempt `N + 1`, the retry loop terminates with a verdict after
exactly `N` retry-delay sleeps (no maximum attempt count); and when every
record's outcome sequence eventually succeeds, the orchestration returns
exactly one verdict per input record — no record is dropped. -/
theorem C4_retry_terminates_complete :
    (∀ (attempts : List Outcome) (N : Nat), succeedsAt attempts N →
      ∃ r, call_openai_async attempts = some (r, N)) ∧
    (∀ (records : List (String × String × String)) (outs : Nat → List Outcome),
      (∀ i, i < records.length → ∃ N, succeedsAt (outs i) N) →
      ∃ verdicts, scan_diff_async records outs = some verdicts ∧
        verdicts.length = records.length) := by
  constructor
  · intro attempts N h
    exact call_openai_succeedsAt N attempts h
  · intro records outs h
    have hsome : ∀ o ∈ (List.range records.length).map
        (fun i => (classify_translation_async (outs i)).map Prod.fst), o.isSome = true := by
      intro o ho
      rw [List.mem_map] at ho
      obtain ⟨i, hi, rfl⟩ := ho
      rw [List.mem_range] at hi
      obtain ⟨N, hN⟩ := h i hi
      obtain ⟨r, hr⟩ := call_openai_succeedsAt N (outs i) hN
      simp [classify_translation_async, hr]
    obtain ⟨vs, hvs, hlen⟩ := gatherAll_isSome _ hsome
    refine ⟨vs, hvs, ?_⟩
    rw [hlen]
    simp

/-- Witness for C4: one record whose classification fails once and succeeds
on the second attempt. -/
theorem C4_witness :
    (∃ r, call_openai_async [Outcome.exc, Outcome.ok "genuine"] = some (r, 1)) ∧
    ∃ verdicts, scan_diff_async [("de_DE", "Wallet", "Geldbeutel")]
        (fun _ => [Outcome.exc, Outcome.ok "genuine"]) = some verdicts ∧
      verdicts.length = 1 := by
  have hs : succeedsAt [Outcome.exc, Outcome.ok "genuine"] 1 := by
    constructor
    · intro j hj
      have hj0 : j = 0 := Nat.lt_one_iff.mp hj
      subst hj0
      exact ⟨Outcome.exc, rfl, rfl⟩
    · exact ⟨Outcome.ok "genuine", "genuine", rfl, by decide⟩
  exact ⟨C4_retry_terminates_complete.1 _ 1 hs,
    C4_retry_terminates_complete.2 [("de_DE", "Wallet", "Geldbeutel")]
      (fun _ => [Outcome.exc, Outcome.ok "genuine"]) (fun i _ => ⟨1, hs⟩)⟩

/-- C5 counterexample: in the input `[msgid "a"]` the key line is followed
by no value-marker line at all (no line starts with `msgstr "`), yet the
scanner emits the entry `("a", "")` — a TextEntry for that key DOES appear,
so the entry is not skipped as the claim states. -/
theorem C5_counterexample_entry_not_skipped :
    (∀ x ∈ ["msgid \"a\""], pyStartsWith x "msgstr \"" = false) ∧
    _extract_pairs_from_lines ["msgid \"a\""] = [("a", "")] := by
  constructor
  · decide
  · rfl

/-- C5 (amended): when a key line is followed by no value-marker line before
the next key line or the end of input, the scanner emits the entry for that
(non-empty) key with the EMPTY value, rather than skipping it. -/
theorem C5_missing_msgstr_defaults_empty :
    ∀ (l : String) (rest : List String),
      pyStartsWith l "msgid \"" = true →
      (∀ x ∈ (_extract_po_string_lines (l :: rest)).2.takeWhile
          (fun y => !(pyStartsWith y "msgid \"")), pyStartsWith x "msgstr \"" = false) →
      (_extract_po_string_lines (l :: rest)).1 ≠ "" →
      _extract_pairs_from_lines (l :: rest) =
        ((_extract_po_string_lines (l :: rest)).1, "") ::
          _extract_pairs_from_lines ((_extract_po_string_lines (l :: rest)).2.dropWhile
            (fun x => !(pyStartsWith x "msgstr \"") && !(pyStartsWith x "msgid \""))) := by
  intro l rest hmsgid h hmid
  rw [extract_pairs_cons, if_pos hmsgid, if_pos hmid, extractMsgstr_no_msgstr _ h]

/-- Witness for the amended C5 at the concrete input `[msgid "a"]`. -/
theorem C5_witness :
    _extract_pairs_from_lines ["msgid \"a\""] =
      ((_extract_po_string_lines ["msgid \"a\""]).1, "") ::
        _extract_pairs_from_lines ((_extract_po_string_lines ["msgid \"a\""]).2.dropWhile
          (fun x => !(pyStartsWith x "msgstr \"") && !(pyStartsWith x "msgid \""))) :=
  C5_missing_msgstr_defaults_empty "msgid \"a\"" [] (by decide) (by decide) (by decide)

/-- C6: the unescaper is a single left-to-right pass: each of the four
two-character escape sequences maps to its literal character with the scan
resuming after the pair, every other character passes through, a backslash
followed by a non-escape character passes through without consuming the
next character, and in particular the three-character input
backslash-backslash-n yields a literal backslash followed by `n`, not a
newline. -/
theorem C6_unescape_single_pass :
    (unescapeChars [] = []) ∧
    (∀ r, unescapeChars ('\\' :: '\\' :: r) = '\\' :: unescapeChars r) ∧
    (∀ r, unescapeChars ('\\' :: 'n' :: r) = '\n' :: unescapeChars r) ∧
    (∀ r, unescapeChars ('\\' :: 't' :: r) = '\t' :: unescapeChars r) ∧
    (∀ r, unescapeChars ('\\' :: '"' :: r) = '"' :: unescapeChars r) ∧
    (∀ (c : Char) (r : List Char), c ≠ '\\' → unescapeChars (c :: r) = c :: unescapeChars r) ∧
    (∀ (c : Char) (r : List Char), c ≠ '\\' ∧ c ≠ 'n' ∧ c ≠ 't' ∧ c ≠ '"' →
      unescapeChars ('\\' :: c :: r) = '\\' :: unescapeChars (c :: r)) ∧
    _unescape_po "\\\\n" = "\\n" := by
  refine ⟨rfl, ?_, ?_, ?_, ?_, ?_, ?_, rfl⟩
  · intro r
    simp [unescapeChars, poEscape]
  · intro r
    simp [unescapeChars, poEscape]
  · intro r
    simp [unescapeChars, poEscape]
  · intro r
    simp [unescapeChars, poEscape]
  · intro c r hc
    cases r with
    | nil => rfl
    | cons b rest =>
      simp only [unescapeChars]
      rw [if_neg (by rintro ⟨h1, -⟩; exact hc h1)]
  · rintro c r ⟨h1, h2, h3, h4⟩
    simp only [unescapeChars]
    rw [if_neg (by rintro ⟨-, h | h | h | h⟩; exacts [h1 h, h2 h, h3 h, h4 h])]

/-- Witness for C6 at concrete characters. -/
theorem C6_witness :
    unescapeChars ['x'] = 'x' :: unescapeChars [] ∧
    unescapeChars ['\\', 'x'] = '\\' :: unescapeChars ['x'] :=
  ⟨C6_unescape_single_pass.2.2.2.2.2.1 'x' [] (by decide),
   C6_unescape_single_pass.2.2.2.2.2.2.1 'x' [] ⟨by decide, by decide, by decide, by decide⟩⟩

/-- C7: an entry whose key is the empty string (the PO header) never appears
in the scanner output, and consequently no record of `parse_po_diff` carries
an empty key. -/
theorem C7_header_excluded :
    (∀ (lines : List String) (p : String × String),
      p ∈ _extract_pairs_from_lines lines → p.1 ≠ "") ∧
    (∀ (files : List PatchedFile) (r : String × String × String),
      r ∈ parse_po_diff files → r.2.1 ≠ "") := by
  constructor
  · intro lines p hp
    exact extractPairsF_key_ne _ _ _ hp
  · intro files r hr
    obtain ⟨f, -, seg, -, hunk, -, hrh⟩ := mem_parse_po_diff hr
    obtain ⟨p, hpm, -, -, hreq⟩ := mem_hunkRecords hrh
    rw [hreq]
    exact extractPairsF_key_ne _ _ _ hpm

/-- Witness for C7 at the concrete wallet diff. -/
theorem C7_witness :
    (("Wallet", "Geldbeutel") : String × String).1 ≠ "" ∧
    (("de_DE", "Wallet", "Geldbeutel") : String × String × String).2.1 ≠ "" :=
  ⟨C7_header_excluded.1 ["msgid \"Wallet\"", "msgstr \"Geldbeutel\""] _ (by decide),
   C7_header_excluded.2 [walletFile] _ (by decide)⟩

/-- C8: the string extractor always makes progress (the remaining suffix
after extracting from an in-range position is no longer than the lines after
that position), and the scanner is total with graceful degradation: on every
finite input it returns a list of at most one pair per line, never an
error. -/
theorem C8_scanner_total :
    (∀ (l : String) (rest : List String),
      ((_extract_po_string_lines (l :: rest)).2).length ≤ rest.length) ∧
    (∀ (lines : List String), (_extract_pairs_from_lines lines).length ≤ lines.length) := by
  constructor
  · exact epsl_length
  · intro lines
    exact extractPairsF_length _ _

/-- C9: in every orchestration state reachable from the start state with
concurrency limit `K`, the free permits and in-flight classifications sum to
`K`, so at no instant are more than `K` classifications outstanding (queued
work is admitted only as permits free up, head of the FIFO queue first). -/
theorem C9_concurrency_bound :
    ∀ (K : Nat) (s : OrchState), orchReachable K s →
      s.permits + s.running.length = K ∧ s.running.length ≤ K := by
  intro K s h
  have hinv := orchReachable_invariant h
  exact ⟨hinv, by omega⟩

/-- Witness for C9: with limit 2, submit three tasks and start two; the
reached state has exactly 2 in flight. -/
theorem C9_witness :
    (⟨0, [12], [10, 11]⟩ : OrchState).permits +
      (⟨0, [12], [10, 11]⟩ : OrchState).running.length = 2 ∧
    (⟨0, [12], [10, 11]⟩ : OrchState).running.length ≤ 2 :=
  C9_concurrency_bound 2 ⟨0, [12], [10, 11]⟩ (by
    have h1 : OrchStep 2 (orchInit 2) ⟨2, [10], []⟩ := OrchStep.submit (orchInit 2) 10
    have h2 : OrchStep 2 ⟨2, [10], []⟩ ⟨2, [10, 11], []⟩ := OrchStep.submit ⟨2, [10], []⟩ 11
    have h3 : OrchStep 2 ⟨2, [10, 11], []⟩ ⟨2, [10, 11, 12], []⟩ :=
      OrchStep.submit ⟨2, [10, 11], []⟩ 12
    have h4 : OrchStep 2 ⟨2, [10, 11, 12], []⟩ ⟨1, [11, 12], [10]⟩ :=
      OrchStep.acquire ⟨2, [10, 11, 12], []⟩ 10 [11, 12] (by decide) rfl
    have h5 : OrchStep 2 ⟨1, [11, 12], [10]⟩ ⟨0, [12], [10, 11]⟩ :=
      OrchStep.acquire ⟨1, [11, 12], [10]⟩ 11 [12] (by decide) rfl
    exact Relation.ReflTransGen.tail
      (Relation.ReflTransGen.tail
        (Relation.ReflTransGen.tail
          (Relation.ReflTransGen.tail
            (Relation.ReflTransGen.tail Relation.ReflTransGen.refl h1) h2) h3) h4) h5)

/-- C10: a path yields a locale match exactly when it contains anywhere a
substring `locale/<segment>/electrum.po` with `<segment>` non-empty and
slash-free and with the final `o` at a word boundary (end of path or a
non-word character next); the emitted locale is such a segment; files whose
path has no match contribute no records; and concretely
`locale/x/electrum.pot` is ineligible while `sub/dir/locale/de_DE/electrum.po`
and `locale/de_DE/electrum.po.orig` are eligible with locale `de_DE`. -/
theorem C10_eligibility_characterization :
    (∀ p : List Char, (∃ seg, findLocaleMatch p = some seg) ↔
      ∃ pre seg post,
        p = pre ++ ("locale/".toList ++ (seg ++ ("/electrum.po".toList ++ post))) ∧
        seg ≠ [] ∧ (∀ c ∈ seg, c ≠ '/') ∧
        (post = [] ∨ ∃ c rest, post = c :: rest ∧ isWordChar c = false)) ∧
    (∀ (p seg : List Char), findLocaleMatch p = some seg →
      ∃ pre post,
        p = pre ++ ("locale/".toList ++ (seg ++ ("/electrum.po".toList ++ post))) ∧
        seg ≠ [] ∧ (∀ c ∈ seg, c ≠ '/') ∧
        (post = [] ∨ ∃ c rest, post = c :: rest ∧ isWordChar c = false)) ∧
    (∀ f : PatchedFile, findLocaleMatch f.path.toList = none → parse_po_diff [f] = []) ∧
    findLocaleMatch "locale/x/electrum.pot".toList = none ∧
    findLocaleMatch "sub/dir/locale/de_DE/electrum.po".toList = some "de_DE".toList ∧
    findLocaleMatch "locale/de_DE/electrum.po.orig".toList = some "de_DE".toList := by
  refine ⟨?_, findLocaleMatch_sound, ?_, by decide, by decide, by decide⟩
  · intro p
    constructor
    · rintro ⟨seg, h⟩
      obtain ⟨pre, post, hp, h1, h2, h3⟩ := findLocaleMatch_sound p seg h
      exact ⟨pre, seg, post, hp, h1, h2, h3⟩
    · rintro ⟨pre, seg, post, rfl, h1, h2, h3⟩
      exact findLocaleMatch_complete pre seg post h1 h2 h3
  · intro f hf
    unfold parse_po_diff
    rw [List.flatMap_cons, List.flatMap_nil, List.append_nil, hf]

/-- Witness for C10 at a concrete eligible and a concrete ineligible path. -/
theorem C10_witness :
    (∃ pre post, "sub/dir/locale/de_DE/electrum.po".toList =
        pre ++ ("locale/".toList ++ ("de_DE".toList ++ ("/electrum.po".toList ++ post))) ∧
        "de_DE".toList ≠ [] ∧ (∀ c ∈ "de_DE".toList, c ≠ '/') ∧
        (post = [] ∨ ∃ c rest, post = c :: rest ∧ isWordChar c = false)) ∧
    parse_po_diff [⟨"README.md", []⟩] = [] :=
  ⟨C10_eligibility_characterization.2.1 _ _ (by decide),
   C10_eligibility_characterization.2.2.1 ⟨"README.md", []⟩ (by decide)⟩

end LlmProofreader
